import Mathlib

/-!
Verification development for the collision broad-phase subsystem of the
gunship engine: the bounding-volume component store
(`src/component/collider/bounding_volume.rs`) and the uniform-grid
collision system (`src/component/collider/grid_collision.rs`).

Scalar values (`f32` in the source) are embedded as rationals `ℚ`, so
arithmetic is exact; entity handles (opaque in the source) are embedded
as naturals.
-/

namespace Gunship

/-- Entity handles are opaque, hashable, comparable identifiers; embedded as naturals. -/
abbrev Entity := Nat

/-- Embeds `Point` from the math library: a point in 3-space. -/
structure Point where
  x : ℚ
  y : ℚ
  z : ℚ
deriving DecidableEq, Repr

/-- Embeds `Vector3` from the math library. -/
structure Vector3 where
  x : ℚ
  y : ℚ
  z : ℚ
deriving DecidableEq, Repr

/-- Embeds `Vector3::new`. -/
def Vector3.new (x y z : ℚ) : Vector3 := ⟨x, y, z⟩

/-- Embeds `Point - Vector3` (componentwise). -/
def Point.subVec (p : Point) (v : Vector3) : Point := ⟨p.x - v.x, p.y - v.y, p.z - v.z⟩

/-- Embeds `Point + Vector3` (componentwise). -/
def Point.addVec (p : Point) (v : Vector3) : Point := ⟨p.x + v.x, p.y + v.y, p.z + v.z⟩

/-- Embeds `Sphere { center, radius }`: a world-space sphere collider. -/
structure Sphere where
  center : Point
  radius : ℚ
deriving DecidableEq, Repr

/-- Embeds the `CachedCollider` tagged variant: `Sphere` (world space), `Box`,
`Mesh`. The `Box` payload is never inspected by the code under study, so it is
embedded without one. -/
inductive CachedCollider where
  | sphere (s : Sphere)
  | boxCollider
  | mesh
deriving DecidableEq, Repr

/-- Squared distance between two points. -/
def Point.distSq (a b : Point) : ℚ :=
  (a.x - b.x) * (a.x - b.x) + (a.y - b.y) * (a.y - b.y) + (a.z - b.z) * (a.z - b.z)

/-- Modelled from the spec: `CachedCollider::test`, the world-space
(shape-level) collider test, whose defining module is not among the provided
sources. Per the spec only `Sphere` is fully implemented: two spheres collide
exactly when the distance between their centers is at most the sum of their
radii (stated here on squared distances). The spec leaves `Box`/`Mesh` shape
tests unimplemented, so every combination involving them is embedded as
`false`. -/
def CachedCollider.test (a b : CachedCollider) : Bool :=
  match a, b with
  | .sphere s1, .sphere s2 =>
      decide (Point.distSq s1.center s2.center ≤ (s1.radius + s2.radius) * (s1.radius + s2.radius))
  | _, _ => false

/-- Embeds `AABB { min, max }`: an axis-aligned bounding box. -/
structure AABB where
  min : Point
  max : Point
deriving DecidableEq, Repr

/-- Embeds the free function `test_ranges(first, second)`: closed-interval
overlap test on one axis. -/
def test_ranges (first second : ℚ × ℚ) : Bool :=
  let (min_a, max_a) := first
  let (min_b, max_b) := second
  !(decide (min_a > max_b) || decide (min_b > max_a)
    || decide (max_a < min_b) || decide (max_b < min_a))

/-- Embeds `AABB::test_aabb`: per-axis range overlap on x, y and z. -/
def AABB.test_aabb (a other : AABB) : Bool :=
  test_ranges (a.min.x, a.max.x) (other.min.x, other.max.x)
    && test_ranges (a.min.y, a.max.y) (other.min.y, other.max.y)
    && test_ranges (a.min.z, a.max.z) (other.min.z, other.max.z)

/-- Embeds `AABB::from_collider`. The source calls `unimplemented!()` on the
`Box` and `Mesh` variants; that abrupt failure is embedded as `none`. -/
def AABB.from_collider (cached_collider : CachedCollider) : Option AABB :=
  match cached_collider with
  | .sphere ⟨center, radius⟩ =>
      let half_width := Vector3.new radius radius radius
      let min := center.subVec half_width
      let max := center.addVec half_width
      some { min := min, max := max }
  | .boxCollider => none
  | .mesh => none

/-- Embeds `BoundVolume { entity, aabb, collider }`. -/
structure BoundVolume where
  entity : Entity
  aabb : AABB
  collider : CachedCollider
deriving DecidableEq, Repr

/-- Embeds `BoundVolume::test` instrumented with invocation tracking: the
second component records whether the shape-level collider test was evaluated.
The source reads

  self.aabb.test_aabb(&other.aabb);
  self.collider.test(&other.collider)

where the AABB result is computed and discarded, and the collider test is
evaluated unconditionally — hence the second component is `true` on every
path. -/
def BoundVolume.testInstr (a other : BoundVolume) : Bool × Bool :=
  let _ := a.aabb.test_aabb other.aabb
  (a.collider.test other.collider, true)

/-- Embeds `BoundVolume::test`: the boolean the source returns. -/
def BoundVolume.test (a other : BoundVolume) : Bool :=
  (a.testInstr other).1

/-- Embeds `GridCell { x, y, z }`: integer triple naming a cubic grid cell. -/
structure GridCell where
  x : ℤ
  y : ℤ
  z : ℤ
deriving DecidableEq, Repr

/-- Embeds `GridCell::new`. -/
def GridCell.new (x y z : ℤ) : GridCell := ⟨x, y, z⟩

/-- Embeds `GridIter { from, to, next }` (fields renamed `frm`/`dest`/`nxt`
since `from` is a Lean keyword and `next` is taken by the method below). -/
structure GridIter where
  frm : GridCell
  dest : GridCell
  nxt : GridCell
deriving DecidableEq, Repr

/-- Embeds `GridCell::iter_to`. -/
def GridCell.iter_to (a : GridCell) (dest : GridCell) : GridIter :=
  { frm := a, dest := dest, nxt := a }

/-- Embeds `<GridIter as Iterator>::next`. The source advances a cursor
(z fastest, then y, then x, with `>=` guards against `to` and resets to
`from`), returns `None` once every coordinate has reached `to`, and otherwise
yields the pre-advance cursor via the `mem::swap` at the end. -/
def GridIter.next (it : GridIter) : Option (GridCell × GridIter) :=
  let frm := it.frm
  let dst := it.dest
  let n := it.nxt
  if n.z ≥ dst.z then
    if n.y ≥ dst.y then
      if n.x ≥ dst.x then
        none
      else
        some (it.nxt, { frm := frm, dest := dst, nxt := ⟨n.x + 1, frm.y, frm.z⟩ })
    else
      some (it.nxt, { frm := frm, dest := dst, nxt := ⟨n.x, n.y + 1, frm.z⟩ })
  else
    some (it.nxt, { frm := frm, dest := dst, nxt := ⟨n.x, n.y, n.z + 1⟩ })

/-- Number of `next` calls the iterator makes before exhaustion, computed
from the cursor state: one per yielded cell plus the final call that returns
`None`. `GridIter.stepBound_next` below proves it decrements by exactly one
across every successful `next`, so `GridIter.toList` defined with it as gas
is the exact drain of the iterator. -/
def GridIter.stepBound (it : GridIter) : Nat :=
  (it.dest.z - it.nxt.z).toNat + 1
    + (it.dest.y - it.nxt.y).toNat * ((it.dest.z - it.frm.z).toNat + 1)
    + (it.dest.x - it.nxt.x).toNat
      * ((it.dest.y - it.frm.y).toNat + 1) * ((it.dest.z - it.frm.z).toNat + 1)

/-- Drains at most `gas` elements from the iterator. -/
def GridIter.drain : Nat → GridIter → List GridCell
  | 0, _ => []
  | gas + 1, it =>
      match it.next with
      | none => []
      | some (c, it') => c :: GridIter.drain gas it'

/-- Exhaustively drains the iterator, as the `for test_cell in
min_cell.iter_to(max_cell)` loop in `GridCollisionSystem::update` does,
collecting the yielded cells in order. -/
def GridIter.toList (it : GridIter) : List GridCell :=
  GridIter.drain it.stepBound it

theorem GridIter.stepBound_pos (it : GridIter) : 1 ≤ it.stepBound := by
  unfold GridIter.stepBound
  omega

theorem GridIter.stepBound_next {it it' : GridIter} {c : GridCell}
    (h : it.next = some (c, it')) : it'.stepBound + 1 = it.stepBound := by
  simp only [GridIter.next] at h
  split at h
  · split at h
    · split at h
      · exact absurd h (by simp)
      · simp only [Option.some.injEq, Prod.mk.injEq] at h
        obtain ⟨-, h2⟩ := h
        subst h2
        unfold GridIter.stepBound
        dsimp only
        have h1 : (it.dest.z - it.nxt.z).toNat = 0 := by omega
        have h2 : (it.dest.y - it.nxt.y).toNat = 0 := by omega
        obtain ⟨k, hk⟩ : ∃ k, (it.dest.x - it.nxt.x).toNat = k + 1 :=
          ⟨(it.dest.x - it.nxt.x).toNat - 1, by omega⟩
        have h3 : (it.dest.x - (it.nxt.x + 1)).toNat = k := by omega
        rw [h1, h2, h3, hk]
        ring
    · simp only [Option.some.injEq, Prod.mk.injEq] at h
      obtain ⟨-, h2⟩ := h
      subst h2
      unfold GridIter.stepBound
      dsimp only
      have h1 : (it.dest.z - it.nxt.z).toNat = 0 := by omega
      obtain ⟨k, hk⟩ : ∃ k, (it.dest.y - it.nxt.y).toNat = k + 1 :=
        ⟨(it.dest.y - it.nxt.y).toNat - 1, by omega⟩
      have h3 : (it.dest.y - (it.nxt.y + 1)).toNat = k := by omega
      rw [h1, h3, hk]
      ring
  · simp only [Option.some.injEq, Prod.mk.injEq] at h
    obtain ⟨-, h2⟩ := h
    subst h2
    unfold GridIter.stepBound
    dsimp only
    omega

/-- The drain satisfies the iterator unfolding: it yields exactly what
repeated `next` calls produce. -/
theorem GridIter.toList_eq (it : GridIter) :
    it.toList = match it.next with
      | none => []
      | some ci => ci.1 :: ci.2.toList := by
  unfold GridIter.toList
  obtain ⟨k, hk⟩ : ∃ k, it.stepBound = k + 1 :=
    ⟨it.stepBound - 1, by have := it.stepBound_pos; omega⟩
  rw [hk, GridIter.drain]
  cases h : it.next with
  | none => rfl
  | some ci =>
      obtain ⟨c1, it1⟩ := ci
      have hs := GridIter.stepBound_next h
      have hk2 : k = it1.stepBound := by omega
      rw [hk2]

/-- Embeds `GridCollisionSystem::world_to_grid`: per-axis floor of
`coordinate / cell_size`. -/
def world_to_grid (cell_size : ℚ) (point : Point) : GridCell :=
  { x := ⌊point.x / cell_size⌋
    y := ⌊point.y / cell_size⌋
    z := ⌊point.z / cell_size⌋ }

/-- The mutable state of `GridCollisionSystem` during one `update()`:
`grid` maps each cell to the volumes registered in it this frame (the
source's `*const BoundVolume` entries are embedded by value — the
bounding-volume array is read-only for the duration of an update), and
`collisions` is the result pair set (a hash set in the source, embedded as a
duplicate-free list). -/
structure GridState where
  grid : List (GridCell × List (Entity × BoundVolume))
  collisions : List (Entity × Entity)
deriving DecidableEq, Repr

/-- Looks a cell up in the grid, as `HashMap::get_mut` does. -/
def lookupCell (g : List (GridCell × List (Entity × BoundVolume))) (c : GridCell) :
    Option (List (Entity × BoundVolume)) :=
  (g.find? (fun p => decide (p.1 = c))).map (fun p => p.2)

/-- Replaces the contents of an existing cell in place. -/
def setCell (g : List (GridCell × List (Entity × BoundVolume))) (c : GridCell)
    (v : List (Entity × BoundVolume)) : List (GridCell × List (Entity × BoundVolume)) :=
  g.map (fun p => if p.1 = c then (c, v) else p)

/-- Inserts a pair into the collision set, as `HashSet::insert` does: a pair
already present is not duplicated. -/
def insertPair (pr : Entity × Entity) (l : List (Entity × Entity)) : List (Entity × Entity) :=
  if pr ∈ l then l else l ++ [pr]

/-- Embeds the body of the `for test_cell in min_cell.iter_to(max_cell)`
loop of `GridCollisionSystem::update`: either test the volume against the
cell's current occupants (recording each pair that satisfies
`BoundVolume::test`, oriented `(entity, other_entity)`) and append the
volume to the cell, or install a fresh one-element cell. -/
def visitCell (bvh : BoundVolume) (st : GridState) (test_cell : GridCell) : GridState :=
  match lookupCell st.grid test_cell with
  | some cell =>
      let collisions := cell.foldl
        (fun cols other =>
          if bvh.test other.2 then insertPair (bvh.entity, other.1) cols else cols)
        st.collisions
      { grid := setCell st.grid test_cell (cell ++ [(bvh.entity, bvh)])
        collisions := collisions }
  | none =>
      { st with grid := st.grid ++ [(test_cell, [(bvh.entity, bvh)])] }

/-- Embeds the body of the `for bvh in bvh_manager.components()` loop of
`GridCollisionSystem::update`: compute the volume's cell range and visit
every yielded cell. -/
def updateVolume (cell_size : ℚ) (st : GridState) (bvh : BoundVolume) : GridState :=
  let aabb := bvh.aabb
  let min_cell := world_to_grid cell_size aabb.min
  let max_cell := world_to_grid cell_size aabb.max
  (min_cell.iter_to max_cell).toList.foldl (visitCell bvh) st

/-- Embeds one `GridCollisionSystem::update()` call starting from
`GridCollisionSystem::new()` (empty grid, `collisions` cleared at entry),
fed the bounding-volume manager's `components()` array in storage order.
The end-of-update pass that empties every bucket while retaining its
allocation has no observable effect on the embedded state of a single
update, because a retained-but-empty bucket behaves exactly like an absent
one. -/
def GridCollisionSystem.update (cell_size : ℚ) (volumes : List BoundVolume) : GridState :=
  volumes.foldl (updateVolume cell_size) { grid := [], collisions := [] }

/-- Looks a key up in an `EntityMap<usize>` (embedded as an association
list): value of the first entry with the given key. -/
def amLookup (m : List (Entity × Nat)) (e : Entity) : Option Nat :=
  (m.find? (fun p => decide (p.1 = e))).map (fun p => p.2)

/-- Embeds `EntityMap::contains_key`. -/
def amContains (m : List (Entity × Nat)) (e : Entity) : Bool :=
  (amLookup m e).isSome

/-- Embeds `EntityMap::insert`: replace the value under an existing key,
otherwise add the binding. -/
def amInsert (m : List (Entity × Nat)) (e : Entity) (v : Nat) : List (Entity × Nat) :=
  if amContains m e then m.map (fun p => if p.1 = e then (e, v) else p)
  else m ++ [(e, v)]

/-- Embeds `EntityMap::remove`: drop every binding for the key. -/
def amRemove (m : List (Entity × Nat)) (e : Entity) : List (Entity × Nat) :=
  m.filter (fun p => decide (p.1 ≠ e))

/-- Embeds `EntitySet::insert` (the set is kept as a duplicate-free list;
the source's hash set has no observable order, so the model fixes insertion
order). -/
def esInsert (s : List Entity) (e : Entity) : List Entity :=
  if e ∈ s then s else s ++ [e]

/-- Embeds Rust `Vec::swap_remove(i)` on a list with `i` in bounds: the last
element moves into slot `i` and the length shrinks by one. (On an empty list
the source would panic; callers below guard the index.) -/
def swapRemove (l : List α) (i : Nat) : List α :=
  match l.getLast? with
  | none => []
  | some last => (l.set i last).dropLast

/-- Embeds `BoundingVolumeManager { components, entities, indices,
marked_for_destroy }`. -/
structure BoundingVolumeManager where
  components : List BoundVolume
  entities : List Entity
  indices : List (Entity × Nat)
  marked_for_destroy : List Entity
deriving DecidableEq, Repr

namespace BoundingVolumeManager

/-- Embeds `BoundingVolumeManager::new`. -/
def new : BoundingVolumeManager := ⟨[], [], [], []⟩

/-- Embeds `BoundingVolumeManager::assign`. The source asserts that the
entity holds no component yet (`assert!(!self.indices.contains_key(..))`);
the fatal assertion is embedded as `none`. On success it appends to both
arrays, records the new slot (the pre-push `components.len()`) in `indices`,
and hands back a reference to `components[index]`. -/
def assign (m : BoundingVolumeManager) (entity : Entity) (component : BoundVolume) :
    Option BoundingVolumeManager :=
  if amContains m.indices entity then none
  else
    let index := m.components.length
    some { components := m.components ++ [component]
           entities := m.entities ++ [entity]
           indices := amInsert m.indices entity index
           marked_for_destroy := m.marked_for_destroy }

/-- Embeds `BoundingVolumeManager::get`: look the slot up in `indices` and
read `components[index]` (in-bounds for every reachable store state). -/
def get (m : BoundingVolumeManager) (entity : Entity) : Option BoundVolume :=
  match amLookup m.indices entity with
  | some index => m.components.get? index
  | none => none

/-- Embeds `BoundingVolumeManager::destroy_immediate`: take the slot out of
`indices` (`unwrap` panics — `none` here — when the entity is absent),
`swap_remove` the entity and the component at that slot, and, unless the
removed slot was the final one, repoint `indices` for the entity moved into
the vacated slot. An out-of-bounds slot (impossible in a reachable state)
would make `swap_remove` panic and is likewise embedded as `none`. -/
def destroy_immediate (m : BoundingVolumeManager) (entity : Entity) :
    Option BoundingVolumeManager :=
  match amLookup m.indices entity with
  | none => none
  | some index =>
      if index < m.entities.length ∧ index < m.components.length then
        let newEntities := swapRemove m.entities index
        let newComponents := swapRemove m.components index
        let indices1 := amRemove m.indices entity
        let indices2 :=
          if h : index < newEntities.length then
            amInsert indices1 (newEntities.get ⟨index, h⟩) index
          else indices1
        some { components := newComponents
               entities := newEntities
               indices := indices2
               marked_for_destroy := m.marked_for_destroy }
      else none

/-- Embeds `ComponentManager::destroy_all` for the bounding-volume store:
mark a currently-present entity for deferred destruction; otherwise do
nothing. No array is touched. -/
def destroy_all (m : BoundingVolumeManager) (entity : Entity) : BoundingVolumeManager :=
  if amContains m.indices entity then
    { m with marked_for_destroy := esInsert m.marked_for_destroy entity }
  else m

/-- Embeds `ComponentManager::destroy_marked`: swap the marked set out for an
empty one, then `destroy_immediate` each drained entity. -/
def destroy_marked (m : BoundingVolumeManager) : Option BoundingVolumeManager :=
  m.marked_for_destroy.foldlM destroy_immediate { m with marked_for_destroy := [] }

end BoundingVolumeManager

/-- One externally-invokable store operation, for stating properties of
arbitrary operation sequences. -/
inductive StoreOp where
  | assign (entity : Entity) (component : BoundVolume)
  | destroyAll (entity : Entity)
  | destroyMarked
deriving DecidableEq, Repr

/-- Runs one store operation. -/
def StoreOp.run (m : BoundingVolumeManager) : StoreOp → Option BoundingVolumeManager
  | .assign e c => m.assign e c
  | .destroyAll e => some (m.destroy_all e)
  | .destroyMarked => m.destroy_marked

/-- Runs a sequence of store operations from `BoundingVolumeManager::new()`;
`none` as soon as one of them hits a fatal assertion. -/
def runOps (ops : List StoreOp) : Option BoundingVolumeManager :=
  ops.foldlM StoreOp.run BoundingVolumeManager.new

/-- Builds the bound volume of a world-space sphere with the AABB the
bounding-volume rebuild pass would give it (`AABB::from_collider`). -/
def sphereVolume (e : Entity) (cx cy cz r : ℚ) : BoundVolume :=
  { entity := e
    aabb := { min := ⟨cx - r, cy - r, cz - r⟩, max := ⟨cx + r, cy + r, cz + r⟩ }
    collider := .sphere ⟨⟨cx, cy, cz⟩, r⟩ }

/-- A unit sphere at the origin and its AABB. -/
def volOrigin : BoundVolume := sphereVolume 1 0 0 0 1

/-- A unit sphere far away on the x-axis, AABB-disjoint from `volOrigin`. -/
def volFar : BoundVolume := sphereVolume 2 10 0 0 1

/-- C1: the claim requires the shape-level collider test to run only when the
AABB test passes, and in particular never to run on an AABB-disjoint pair.
The source of `BoundVolume::test` discards the AABB result and evaluates the
collider test unconditionally: here the two AABBs are disjoint
(`test_aabb = false`), yet the instrumented embedding records the collider
test as evaluated; the last conjunct generalizes this to every input pair. -/
theorem test_runs_collider_despite_disjoint_aabbs :
    AABB.test_aabb volOrigin.aabb volFar.aabb = false
    ∧ (volOrigin.testInstr volFar).2 = true
    ∧ volOrigin.test volFar = false
    ∧ ∀ a b : BoundVolume, (a.testInstr b).2 = true := by
  refine ⟨?_, rfl, ?_, fun a b => rfl⟩
  · norm_num [AABB.test_aabb, test_ranges, volOrigin, volFar, sphereVolume]
  · norm_num [BoundVolume.test, BoundVolume.testInstr, CachedCollider.test, Point.distSq,
      volOrigin, volFar, sphereVolume]

/-- C2: the claim says `min_cell.iter_to(max_cell)` enumerates the inclusive
cuboid `[min_cell, max_cell]`, yielding exactly the one cell when the bounds
coincide. The source iterator bails out on its final cursor state before
yielding it: draining `iter_to((0,0,0), (0,0,0))` yields nothing (its very
first `next()` returns `None`), and draining `iter_to((0,0,0), (1,1,1))`
yields the lexicographic cuboid with the corner `(1,1,1)` missing. -/
theorem iter_to_skips_final_cell :
    (GridCell.iter_to ⟨0, 0, 0⟩ ⟨0, 0, 0⟩).toList = []
    ∧ (GridCell.iter_to ⟨0, 0, 0⟩ ⟨0, 0, 0⟩).next = none
    ∧ (GridCell.iter_to ⟨0, 0, 0⟩ ⟨1, 1, 1⟩).toList =
        [⟨0, 0, 0⟩, ⟨0, 0, 1⟩, ⟨0, 1, 0⟩, ⟨0, 1, 1⟩, ⟨1, 0, 0⟩, ⟨1, 0, 1⟩, ⟨1, 1, 0⟩] := by
  refine ⟨by decide, by decide, by decide⟩

/-- A unit sphere at `(1,1,1)`: its AABB spans `[0,2]³`, inside the single
grid cell `(0,0,0)` when `cell_size = 10`. -/
def volA : BoundVolume := sphereVolume 1 1 1 1 1

/-- A unit sphere at `(2,1,1)`: overlaps `volA` (center distance 1 against
radius sum 2) and its AABB `[1,3]×[0,2]×[0,2]` overlaps `volA`'s. -/
def volB : BoundVolume := sphereVolume 2 2 1 1 1

/-- C3: two spheres whose AABBs (and spheres) overlap, with `cell_size = 10`
larger than both AABBs, must produce exactly one collision pair after one
`update()`. Each AABB here falls inside the single cell `(0,0,0)`, so
`min_cell == max_cell` for both volumes; the iterator defect makes
`iter_to` yield no cell at all, neither volume is ever registered or tested,
and the pair set comes out empty instead of holding the one pair. -/
theorem update_drops_single_cell_pair :
    AABB.test_aabb volA.aabb volB.aabb = true
    ∧ CachedCollider.test volA.collider volB.collider = true
    ∧ world_to_grid 10 volA.aabb.min = world_to_grid 10 volA.aabb.max
    ∧ (GridCollisionSystem.update 10 [volA, volB]).collisions = [] := by
  refine ⟨?_, ?_, ?_, ?_⟩
  · norm_num [AABB.test_aabb, test_ranges, volA, volB, sphereVolume]
  · norm_num [CachedCollider.test, Point.distSq, volA, volB, sphereVolume]
  · norm_num [world_to_grid, volA, sphereVolume]
  · norm_num [GridCollisionSystem.update, updateVolume, visitCell, GridIter.toList, GridIter.stepBound,
      GridIter.drain, GridIter.next, GridCell.iter_to, world_to_grid, lookupCell, setCell,
      insertPair, BoundVolume.test, BoundVolume.testInstr, CachedCollider.test, AABB.test_aabb,
      test_ranges, Point.distSq, volA, volB, sphereVolume]

/-- C7: for a world-space sphere the AABB is exactly `center ± (r,r,r)`, and
the concrete sphere at the origin with radius 2 gets
`min = (-2,-2,-2)`, `max = (2,2,2)`. -/
theorem from_collider_sphere_exact :
    (∀ c r, AABB.from_collider (.sphere ⟨c, r⟩) =
        some { min := c.subVec (Vector3.new r r r), max := c.addVec (Vector3.new r r r) })
    ∧ AABB.from_collider (.sphere ⟨⟨0, 0, 0⟩, 2⟩) =
        some { min := ⟨-2, -2, -2⟩, max := ⟨2, 2, 2⟩ } := by
  refine ⟨fun c r => rfl, ?_⟩
  norm_num [AABB.from_collider, Point.subVec, Point.addVec, Vector3.new]

/-- C8: `world_to_grid` is per-axis `floor(coordinate / cell_size)`, and with
`cell_size = 1` the point `(1.5, -0.5, 2.0)` lands in cell `(1, -1, 2)`. -/
theorem world_to_grid_is_floor_div :
    (∀ cs p, world_to_grid cs p = { x := ⌊p.x / cs⌋, y := ⌊p.y / cs⌋, z := ⌊p.z / cs⌋ })
    ∧ world_to_grid 1 ⟨3 / 2, -1 / 2, 2⟩ = ⟨1, -1, 2⟩ := by
  refine ⟨fun cs p => rfl, ?_⟩
  norm_num [world_to_grid]

theorem mem_esInsert_self (s : List Entity) (e : Entity) : e ∈ esInsert s e := by
  unfold esInsert
  split
  · assumption
  · simp

theorem esInsert_idem (s : List Entity) (e : Entity) :
    esInsert (esInsert s e) e = esInsert s e := by
  by_cases h : e ∈ s
  · simp [esInsert, h]
  · simp [esInsert, h]

/-- C6: `destroy_all` is idempotent before a flush, never touches the
`components`/`entities` arrays or the slot index, and is a no-op on an
entity not present in the store. -/
theorem destroy_all_idempotent_pure (m : BoundingVolumeManager) (e : Entity) :
    (m.destroy_all e).destroy_all e = m.destroy_all e
    ∧ (m.destroy_all e).components = m.components
    ∧ (m.destroy_all e).entities = m.entities
    ∧ (m.destroy_all e).indices = m.indices
    ∧ (amContains m.indices e = false → m.destroy_all e = m) := by
  by_cases hc : amContains m.indices e = true
  · simp [BoundingVolumeManager.destroy_all, hc, esInsert_idem]
  · simp [BoundingVolumeManager.destroy_all, hc]

/-- Witness for C6 at a concrete store and entity. -/
theorem destroy_all_idempotent_pure_witness :
    (BoundingVolumeManager.new.destroy_all 7).destroy_all 7
        = BoundingVolumeManager.new.destroy_all 7
    ∧ (BoundingVolumeManager.new.destroy_all 7).components
        = BoundingVolumeManager.new.components
    ∧ (BoundingVolumeManager.new.destroy_all 7).entities
        = BoundingVolumeManager.new.entities
    ∧ (BoundingVolumeManager.new.destroy_all 7).indices
        = BoundingVolumeManager.new.indices
    ∧ (amContains BoundingVolumeManager.new.indices 7 = false →
          BoundingVolumeManager.new.destroy_all 7 = BoundingVolumeManager.new) :=
  destroy_all_idempotent_pure BoundingVolumeManager.new 7

theorem amLookup_append_self (l : List (Entity × Nat)) (e : Entity) (v : Nat)
    (h : amContains l e = false) : amLookup (l ++ [(e, v)]) e = some v := by
  induction l with
  | nil => simp [amLookup, List.find?]
  | cons p l ih =>
      by_cases hp : p.1 = e
      · exact absurd h (by simp [amContains, amLookup, List.find?, hp])
      · have h' : amContains l e = false := by
          simpa [amContains, amLookup, List.find?, hp] using h
        simpa [amLookup, List.find?, hp] using ih h'

/-- C9: `assign` hits its fatal assertion exactly when the entity already
holds a component; otherwise it appends the component and entity, records the
new slot in the index, leaves the marked set alone, and the freshly recorded
slot holds the stored component (the returned exclusive reference). -/
theorem assign_fails_iff_present (m : BoundingVolumeManager) (e : Entity) (c : BoundVolume) :
    (m.assign e c = none ↔ amContains m.indices e = true)
    ∧ (amContains m.indices e = false →
        m.assign e c = some
            { components := m.components ++ [c]
              entities := m.entities ++ [e]
              indices := amInsert m.indices e m.components.length
              marked_for_destroy := m.marked_for_destroy }
        ∧ amLookup (amInsert m.indices e m.components.length) e = some m.components.length
        ∧ (m.components ++ [c]).get? m.components.length = some c) := by
  by_cases hc : amContains m.indices e = true
  · simp [BoundingVolumeManager.assign, hc]
  · have hc' : amContains m.indices e = false := by
      revert hc
      cases amContains m.indices e <;> simp
    refine ⟨by simp [BoundingVolumeManager.assign, hc'], fun _ => ⟨?_, ?_, ?_⟩⟩
    · simp [BoundingVolumeManager.assign, hc']
    · rw [show amInsert m.indices e m.components.length
          = m.indices ++ [(e, m.components.length)] by simp [amInsert, hc']]
      exact amLookup_append_self _ _ _ hc'
    · simp

/-- Witness for C9: assigning to a fresh store succeeds and stores the
component at slot 0. -/
theorem assign_fails_iff_present_witness :
    amContains BoundingVolumeManager.new.indices 3 = false
    ∧ (BoundingVolumeManager.new.assign 3 (sphereVolume 3 0 0 0 1) = some
          { components := BoundingVolumeManager.new.components ++ [sphereVolume 3 0 0 0 1]
            entities := BoundingVolumeManager.new.entities ++ [3]
            indices := amInsert BoundingVolumeManager.new.indices 3
              BoundingVolumeManager.new.components.length
            marked_for_destroy := BoundingVolumeManager.new.marked_for_destroy }
        ∧ amLookup (amInsert BoundingVolumeManager.new.indices 3
              BoundingVolumeManager.new.components.length) 3
            = some BoundingVolumeManager.new.components.length
        ∧ (BoundingVolumeManager.new.components ++ [sphereVolume 3 0 0 0 1]).get?
            BoundingVolumeManager.new.components.length = some (sphereVolume 3 0 0 0 1)) :=
  ⟨rfl, (assign_fails_iff_present BoundingVolumeManager.new 3 (sphereVolume 3 0 0 0 1)).2 rfl⟩

theorem amLookup_cons (p : Entity × Nat) (l : List (Entity × Nat)) (e : Entity) :
    amLookup (p :: l) e = if p.1 = e then some p.2 else amLookup l e := by
  by_cases h : p.1 = e
  · simp [amLookup, List.find?_cons_of_pos, h]
  · simp [amLookup, List.find?_cons_of_neg, h]

theorem amLookup_eq_some_mem {l : List (Entity × Nat)} {e : Entity} {i : Nat}
    (h : amLookup l e = some i) : (e, i) ∈ l := by
  unfold amLookup at h
  cases hf : l.find? (fun p => decide (p.1 = e)) with
  | none => rw [hf] at h; exact absurd h (by simp)
  | some p =>
      rw [hf] at h
      have hm := List.mem_of_find?_eq_some hf
      have hp := List.find?_some hf
      simp only [decide_eq_true_eq] at hp
      simp only [Option.map_some', Option.some.injEq] at h
      have : p = (e, i) := by
        cases p
        simp_all
      exact this ▸ hm

theorem amLookup_append (l1 l2 : List (Entity × Nat)) (e : Entity) :
    amLookup (l1 ++ l2) e = (amLookup l1 e).or (amLookup l2 e) := by
  unfold amLookup
  rw [List.find?_append]
  cases l1.find? (fun p => decide (p.1 = e)) <;> simp

theorem amLookup_amRemove_self (l : List (Entity × Nat)) (e : Entity) :
    amLookup (amRemove l e) e = none := by
  unfold amLookup amRemove
  rw [List.find?_eq_none.mpr]
  · rfl
  · intro x hx
    have := (List.mem_filter.mp hx).2
    simp only [decide_eq_true_eq] at this ⊢
    exact this

theorem amLookup_amRemove_ne (l : List (Entity × Nat)) (e e' : Entity) (h : e' ≠ e) :
    amLookup (amRemove l e) e' = amLookup l e' := by
  induction l with
  | nil => rfl
  | cons p l ih =>
      by_cases hp : p.1 = e
      · have : amRemove (p :: l) e = amRemove l e := by simp [amRemove, List.filter, hp]
        rw [this, ih, amLookup_cons]
        have : ¬p.1 = e' := by rw [hp]; exact fun hh => h hh.symm
        simp [this]
      · have : amRemove (p :: l) e = p :: amRemove l e := by simp [amRemove, List.filter, hp]
        rw [this, amLookup_cons, amLookup_cons, ih]

theorem mem_amRemove {l : List (Entity × Nat)} {e : Entity} {p : Entity × Nat}
    (h : p ∈ amRemove l e) : p ∈ l ∧ p.1 ≠ e := by
  have := List.mem_filter.mp h
  simpa using this

theorem amLookup_mapReplace_self (l : List (Entity × Nat)) (e : Entity) (v : Nat)
    (hc : amContains l e = true) :
    amLookup (l.map (fun p => if p.1 = e then (e, v) else p)) e = some v := by
  induction l with
  | nil => exact absurd hc (by simp [amContains, amLookup])
  | cons p l ih =>
      by_cases hp : p.1 = e
      · simp only [List.map_cons, if_pos hp]
        rw [amLookup_cons]
        simp
      · simp only [List.map_cons, if_neg hp]
        rw [amLookup_cons, if_neg hp]
        refine ih ?_
        have := hc
        unfold amContains at this ⊢
        rwa [amLookup_cons, if_neg hp] at this

theorem amLookup_mapReplace_ne (l : List (Entity × Nat)) (e : Entity) (v : Nat) (e' : Entity)
    (h : e' ≠ e) :
    amLookup (l.map (fun p => if p.1 = e then (e, v) else p)) e' = amLookup l e' := by
  induction l with
  | nil => rfl
  | cons p l ih =>
      by_cases hp : p.1 = e
      · simp only [List.map_cons, if_pos hp]
        rw [amLookup_cons, amLookup_cons, ih]
        have h1 : ¬(e = e') := fun hh => h hh.symm
        have h2 : ¬(p.1 = e') := by rw [hp]; exact h1
        simp [h1, h2]
      · simp only [List.map_cons, if_neg hp]
        rw [amLookup_cons, amLookup_cons, ih]

theorem amLookup_amInsert_self (l : List (Entity × Nat)) (e : Entity) (v : Nat) :
    amLookup (amInsert l e v) e = some v := by
  unfold amInsert
  by_cases hc : amContains l e = true
  · rw [if_pos hc]
    exact amLookup_mapReplace_self l e v hc
  · have hc' : amContains l e = false := by
      revert hc; cases amContains l e <;> simp
    rw [if_neg (by simp [hc'])]
    exact amLookup_append_self l e v hc'

theorem amLookup_amInsert_ne (l : List (Entity × Nat)) (e : Entity) (v : Nat) (e' : Entity)
    (h : e' ≠ e) : amLookup (amInsert l e v) e' = amLookup l e' := by
  unfold amInsert
  split
  · exact amLookup_mapReplace_ne l e v e' h
  · rw [amLookup_append, amLookup_cons]
    have : ¬(e = e') := fun hh => h hh.symm
    simp [this, amLookup]

theorem mem_amInsert {l : List (Entity × Nat)} {e : Entity} {v : Nat} {p : Entity × Nat}
    (h : p ∈ amInsert l e v) : p = (e, v) ∨ (p ∈ l ∧ p.1 ≠ e) := by
  unfold amInsert at h
  split at h
  · obtain ⟨q, hq, hmap⟩ := List.mem_map.mp h
    by_cases hqe : q.1 = e
    · rw [if_pos hqe] at hmap
      exact Or.inl hmap.symm
    · rw [if_neg hqe] at hmap
      exact Or.inr ⟨hmap ▸ hq, hmap ▸ hqe⟩
  · rename_i hc
    have hc' : amContains l e = false := by
      revert hc; cases amContains l e <;> simp
    rcases List.mem_append.mp h with hl | hr
    · refine Or.inr ⟨hl, fun hpe => ?_⟩
      have : l.find? (fun q => decide (q.1 = e)) = none := by
        unfold amContains amLookup at hc'
        cases hf : l.find? (fun q => decide (q.1 = e))
        · rfl
        · rw [hf] at hc'; exact absurd hc' (by simp)
      have := List.find?_eq_none.mp this p hl
      simp [hpe] at this
    · simp only [List.mem_singleton] at hr
      exact Or.inl hr

theorem length_swapRemove (l : List α) (i : Nat) (h : i < l.length) :
    (swapRemove l i).length = l.length - 1 := by
  unfold swapRemove
  cases hl : l.getLast? with
  | none =>
      rw [List.getLast?_eq_none_iff] at hl
      subst hl
      simp at h
  | some last => simp [List.length_dropLast, List.length_set]

theorem getElem?_swapRemove (l : List α) (i j : Nat) (hi : i < l.length)
    (hj : j < l.length - 1) :
    (swapRemove l i)[j]? = if j = i then l[l.length - 1]? else l[j]? := by
  unfold swapRemove
  cases hl : l.getLast? with
  | none =>
      rw [List.getLast?_eq_none_iff] at hl
      subst hl
      simp at hi
  | some last =>
      have hlast : l[l.length - 1]? = some last := by
        rw [← List.getLast?_eq_getElem?, hl]
      rw [List.getElem?_dropLast, List.length_set, if_pos hj, List.getElem?_set]
      by_cases hij : j = i
      · subst hij
        simp [hi, hlast]
      · rw [if_neg (fun hh => hij hh.symm), if_neg hij]

/-- Array/index consistency of the store: parallel arrays of equal length,
every stored entity's index entry points back at its slot, and every index
entry names the entity sitting in its slot. -/
def WfCore (m : BoundingVolumeManager) : Prop :=
  m.entities.length = m.components.length
  ∧ (∀ i (h : i < m.entities.length), amLookup m.indices m.entities[i] = some i)
  ∧ (∀ p ∈ m.indices, m.entities[p.2]? = some p.1)

/-- Full store invariant: array/index consistency plus a well-formed pending
set (duplicate-free, holding only currently present entities). Every state
reachable from `new()` satisfies it (`runOps_wf`). -/
def Wf (m : BoundingVolumeManager) : Prop :=
  WfCore m
  ∧ m.marked_for_destroy.Nodup
  ∧ (∀ e ∈ m.marked_for_destroy, amContains m.indices e = true)

theorem lookup_sound {m : BoundingVolumeManager} (hwf : WfCore m) {e : Entity} {i : Nat}
    (h : amLookup m.indices e = some i) : m.entities[i]? = some e :=
  hwf.2.2 (e, i) (amLookup_eq_some_mem h)

theorem entities_nodup {m : BoundingVolumeManager} (hwf : WfCore m) : m.entities.Nodup := by
  rw [List.nodup_iff_injective_get]
  intro ⟨i, hi⟩ ⟨j, hj⟩ hij
  have h1 := hwf.2.1 i hi
  have h2 := hwf.2.1 j hj
  simp only [List.get_eq_getElem] at hij
  rw [hij, h2] at h1
  simpa using h1.symm

theorem contains_of_get_isSome {m : BoundingVolumeManager} {e : Entity} {c : BoundVolume}
    (h : m.get e = some c) : amContains m.indices e = true := by
  unfold BoundingVolumeManager.get at h
  unfold amContains
  cases hl : amLookup m.indices e
  · rw [hl] at h; exact absurd h (by simp)
  · simp

theorem getElem_eq_of_getElem? {α : Type} {l : List α} {j : Nat} {v : α}
    (h : j < l.length) (hv : l[j]? = some v) : l[j] = v := by
  rw [List.getElem?_eq_getElem h] at hv
  exact Option.some.inj hv

theorem get_none_of_lookup_none (m : BoundingVolumeManager) (e : Entity)
    (h : amLookup m.indices e = none) : m.get e = none := by
  unfold BoundingVolumeManager.get
  rw [h]

theorem get_eq_of_lookup (m : BoundingVolumeManager) (e : Entity) (i : Nat)
    (h : amLookup m.indices e = some i) : m.get e = m.components.get? i := by
  unfold BoundingVolumeManager.get
  rw [h]

theorem get_ext {m1 m2 : BoundingVolumeManager} (e : Entity)
    (hl : amLookup m1.indices e = amLookup m2.indices e)
    (hsame : ∀ i, amLookup m2.indices e = some i →
        m1.components.get? i = m2.components.get? i) :
    m1.get e = m2.get e := by
  unfold BoundingVolumeManager.get
  rw [hl]
  cases h : amLookup m2.indices e with
  | none => rfl
  | some i => exact hsame i h

theorem get_eq_get {m1 m2 : BoundingVolumeManager} (e : Entity) (i j : Nat)
    (h1 : amLookup m1.indices e = some i) (h2 : amLookup m2.indices e = some j)
    (hcomp : m1.components.get? i = m2.components.get? j) : m1.get e = m2.get e := by
  unfold BoundingVolumeManager.get
  rw [h1, h2]
  exact hcomp

theorem get_isSome_of_contains {m : BoundingVolumeManager} (hwf : WfCore m) {e : Entity}
    (hc : amContains m.indices e = true) : ∃ c, m.get e = some c := by
  unfold amContains at hc
  cases hl : amLookup m.indices e with
  | none => rw [hl] at hc; exact absurd hc (by simp)
  | some i =>
      have hes := lookup_sound hwf hl
      have hi : i < m.entities.length := (List.getElem?_eq_some.mp hes).1
      have hic : i < m.components.length := hwf.1 ▸ hi
      refine ⟨m.components[i], ?_⟩
      rw [get_eq_of_lookup m e i hl, List.get?_eq_getElem?]
      exact List.getElem?_eq_getElem hic

/-- Full specification of `destroy_immediate` on a consistent store holding
the entity: it succeeds, preserves consistency, leaves the marked set alone,
drops exactly one slot, makes `get` of the removed entity `none`, and
preserves `get` of every other entity. -/
theorem destroy_immediate_spec (m : BoundingVolumeManager) (e : Entity)
    (hwf : WfCore m) (hc : amContains m.indices e = true) :
    ∃ m', m.destroy_immediate e = some m'
      ∧ WfCore m'
      ∧ m'.marked_for_destroy = m.marked_for_destroy
      ∧ m'.entities.length = m.entities.length - 1
      ∧ m'.get e = none
      ∧ (∀ e', e' ≠ e → m'.get e' = m.get e') := by
  unfold amContains at hc
  obtain ⟨index, hlk⟩ : ∃ i, amLookup m.indices e = some i := by
    cases hl : amLookup m.indices e
    · rw [hl] at hc; exact absurd hc (by simp)
    · exact ⟨_, rfl⟩
  have hes : m.entities[index]? = some e := lookup_sound hwf hlk
  have hilt : index < m.entities.length := (List.getElem?_eq_some.mp hes).1
  have hicomp : index < m.components.length := hwf.1 ▸ hilt
  have hLC : m.components.length = m.entities.length := hwf.1.symm
  -- slot lookup from a getElem? fact
  have hinj : ∀ (j : Nat) (x : Entity), m.entities[j]? = some x →
      amLookup m.indices x = some j := by
    intro j x hx
    obtain ⟨h, hv⟩ := List.getElem?_eq_some.mp hx
    have := hwf.2.1 j h
    rwa [hv] at this
  set newEnts := swapRemove m.entities index with hNE
  set newComps := swapRemove m.components index with hNC
  have hlenE : newEnts.length = m.entities.length - 1 := length_swapRemove _ _ hilt
  have hlenC : newComps.length = m.entities.length - 1 := by
    rw [hNC, length_swapRemove _ _ hicomp, hLC]
  have hgetE : ∀ j, j < m.entities.length - 1 →
      newEnts[j]? = if j = index then m.entities[m.entities.length - 1]? else m.entities[j]? :=
    fun j hj => getElem?_swapRemove m.entities index j hilt hj
  have hgetC : ∀ j, j < m.entities.length - 1 →
      newComps[j]? = if j = index then m.components[m.entities.length - 1]?
        else m.components[j]? := by
    intro j hj
    have := getElem?_swapRemove m.components index j hicomp (by omega)
    rwa [hLC] at this
  -- the entity in the last slot
  obtain ⟨w, hwq⟩ : ∃ w, m.entities[m.entities.length - 1]? = some w :=
    ⟨_, List.getElem?_eq_getElem (by omega)⟩
  have hlkw : amLookup m.indices w = some (m.entities.length - 1) := hinj _ _ hwq
  have hstep : m.destroy_immediate e = some
      { components := newComps
        entities := newEnts
        indices :=
          (if h : index < newEnts.length then
            amInsert (amRemove m.indices e) (newEnts.get ⟨index, h⟩) index
          else amRemove m.indices e)
        marked_for_destroy := m.marked_for_destroy } := by
    simp only [BoundingVolumeManager.destroy_immediate, hlk,
      if_pos (⟨hilt, hicomp⟩ : index < m.entities.length ∧ index < m.components.length)]
  refine ⟨_, hstep, ?_⟩
  by_cases hcase : index < m.entities.length - 1
  -- Case B: the removed slot was not the last one; the entity w moved out of
  -- the last slot gets its index entry repointed at the vacated slot.
  · have hdlt : index < newEnts.length := by omega
    have hmvq : newEnts[index]? = some w := by
      rw [hgetE index hcase, if_pos rfl]
      exact hwq
    have hmv : newEnts.get ⟨index, hdlt⟩ = w := getElem_eq_of_getElem? hdlt hmvq
    have hwe : w ≠ e := by
      intro hweq
      rw [hweq, hlk] at hlkw
      have := Option.some.inj hlkw
      omega
    have hIdx : (if h : index < newEnts.length then
        amInsert (amRemove m.indices e) (newEnts.get ⟨index, h⟩) index
      else amRemove m.indices e) = amInsert (amRemove m.indices e) w index := by
      rw [dif_pos hdlt, hmv]
    have hlkNew : ∀ x : Entity,
        amLookup (amInsert (amRemove m.indices e) w index) x =
          if x = w then some index
          else if x = e then none
          else amLookup m.indices x := by
      intro x
      by_cases hxw : x = w
      · rw [if_pos hxw, hxw, amLookup_amInsert_self]
      · rw [if_neg hxw, amLookup_amInsert_ne _ _ _ _ hxw]
        by_cases hxe : x = e
        · rw [if_pos hxe, hxe, amLookup_amRemove_self]
        · rw [if_neg hxe, amLookup_amRemove_ne _ _ _ hxe]
    refine ⟨⟨by show newEnts.length = newComps.length; rw [hlenE, hlenC], ?_, ?_⟩, rfl, hlenE, ?_, ?_⟩
    -- lookup_get
    · intro j hj
      simp only [hIdx]
      have hj' : j < newEnts.length := hj
      have hjlen : j < m.entities.length - 1 := by omega
      by_cases hji : j = index
      · have hvq : newEnts[j]? = some w := by
          rw [hgetE j hjlen, if_pos hji]
          exact hwq
        have hveq : newEnts[j] = w := getElem_eq_of_getElem? hj hvq
        rw [hveq, hlkNew w, if_pos rfl, hji]
      · obtain ⟨x, hxq⟩ : ∃ x, newEnts[j]? = some x := ⟨_, List.getElem?_eq_getElem hj⟩
        have hveq : newEnts[j] = x := getElem_eq_of_getElem? hj hxq
        have hxq' : m.entities[j]? = some x := by
          rw [hgetE j hjlen, if_neg hji] at hxq
          exact hxq
        have hlx : amLookup m.indices x = some j := hinj j x hxq'
        have hxw : x ≠ w := by
          intro hxw
          rw [hxw, hlkw] at hlx
          have := Option.some.inj hlx
          omega
        have hxe : x ≠ e := by
          intro hxe
          rw [hxe, hlk] at hlx
          have := Option.some.inj hlx
          exact hji this.symm
        rw [hveq, hlkNew x, if_neg hxw, if_neg hxe]
        exact hlx
    -- mem_sound
    · intro p hp
      simp only [hIdx] at hp
      rcases mem_amInsert hp with hpe | ⟨hpl, hpw⟩
      · subst hpe
        show newEnts[index]? = some w
        exact hmvq
      · obtain ⟨hpl2, hpe⟩ := mem_amRemove hpl
        have hsound := hwf.2.2 p hpl2
        have hplt : p.2 < m.entities.length := (List.getElem?_eq_some.mp hsound).1
        have hpi : p.2 ≠ index := by
          intro hh
          rw [hh, hes] at hsound
          exact hpe (Option.some.inj hsound).symm
        have hpL : p.2 ≠ m.entities.length - 1 := by
          intro hh
          rw [hh, hwq] at hsound
          exact hpw (Option.some.inj hsound).symm
        show newEnts[p.2]? = some p.1
        rw [hgetE p.2 (by omega), if_neg hpi]
        exact hsound
    -- get of the removed entity
    · refine get_none_of_lookup_none _ e ?_
      show amLookup _ e = none
      simp only [hIdx]
      rw [hlkNew e, if_neg (fun h => hwe h.symm), if_pos rfl]
    -- get preserved for other entities
    · intro e' he'
      by_cases he'w : e' = w
      · refine get_eq_get e' index (m.entities.length - 1) ?_ ?_ ?_
        · show amLookup (if h : index < newEnts.length then
              amInsert (amRemove m.indices e) (newEnts.get ⟨index, h⟩) index
            else amRemove m.indices e) e' = some index
          rw [hIdx, hlkNew e', if_pos he'w]
        · rw [he'w]
          exact hlkw
        · show newComps.get? index = m.components.get? (m.entities.length - 1)
          rw [List.get?_eq_getElem?, List.get?_eq_getElem?, hgetC index hcase, if_pos rfl]
      · refine get_ext e' ?_ ?_
        · show amLookup (if h : index < newEnts.length then
              amInsert (amRemove m.indices e) (newEnts.get ⟨index, h⟩) index
            else amRemove m.indices e) e' = amLookup m.indices e'
          rw [hIdx, hlkNew e', if_neg he'w, if_neg he']
        · intro j hlx
          have hsound := lookup_sound hwf hlx
          have hjlt : j < m.entities.length := (List.getElem?_eq_some.mp hsound).1
          have hji : j ≠ index := by
            intro hh
            rw [hh, hes] at hsound
            exact he' (Option.some.inj hsound).symm
          have hjL : j ≠ m.entities.length - 1 := by
            intro hh
            rw [hh, hwq] at hsound
            exact he'w (Option.some.inj hsound).symm
          show newComps.get? j = m.components.get? j
          rw [List.get?_eq_getElem?, List.get?_eq_getElem?, hgetC j (by omega), if_neg hji]
  -- Case A: the removed slot was the last one; no index entry moves.
  · have hieq : index = m.entities.length - 1 := by omega
    have hdge : ¬index < newEnts.length := by omega
    have hIdx : (if h : index < newEnts.length then
        amInsert (amRemove m.indices e) (newEnts.get ⟨index, h⟩) index
      else amRemove m.indices e) = amRemove m.indices e := dif_neg hdge
    have hlkNew : ∀ x : Entity,
        amLookup (amRemove m.indices e) x =
          if x = e then none else amLookup m.indices x := by
      intro x
      by_cases hxe : x = e
      · rw [if_pos hxe, hxe, amLookup_amRemove_self]
      · rw [if_neg hxe, amLookup_amRemove_ne _ _ _ hxe]
    refine ⟨⟨by show newEnts.length = newComps.length; rw [hlenE, hlenC], ?_, ?_⟩, rfl, hlenE, ?_, ?_⟩
    · intro j hj
      simp only [hIdx]
      have hj' : j < newEnts.length := hj
      have hjlen : j < m.entities.length - 1 := by omega
      have hji : j ≠ index := by omega
      obtain ⟨x, hxq⟩ : ∃ x, newEnts[j]? = some x := ⟨_, List.getElem?_eq_getElem hj⟩
      have hveq : newEnts[j] = x := getElem_eq_of_getElem? hj hxq
      have hxq' : m.entities[j]? = some x := by
        rw [hgetE j hjlen, if_neg hji] at hxq
        exact hxq
      have hlx : amLookup m.indices x = some j := hinj j x hxq'
      have hxe : x ≠ e := by
        intro hxe
        rw [hxe, hlk] at hlx
        have := Option.some.inj hlx
        exact hji this.symm
      rw [hveq, hlkNew x, if_neg hxe]
      exact hlx
    · intro p hp
      simp only [hIdx] at hp
      obtain ⟨hpl2, hpe⟩ := mem_amRemove hp
      have hsound := hwf.2.2 p hpl2
      have hplt : p.2 < m.entities.length := (List.getElem?_eq_some.mp hsound).1
      have hpi : p.2 ≠ index := by
        intro hh
        rw [hh, hes] at hsound
        exact hpe (Option.some.inj hsound).symm
      show newEnts[p.2]? = some p.1
      rw [hgetE p.2 (by omega), if_neg hpi]
      exact hsound
    · refine get_none_of_lookup_none _ e ?_
      show amLookup _ e = none
      simp only [hIdx]
      rw [hlkNew e, if_pos rfl]
    · intro e' he'
      refine get_ext e' ?_ ?_
      · show amLookup (if h : index < newEnts.length then
            amInsert (amRemove m.indices e) (newEnts.get ⟨index, h⟩) index
          else amRemove m.indices e) e' = amLookup m.indices e'
        rw [hIdx, hlkNew e', if_neg he']
      · intro j hlx
        have hsound := lookup_sound hwf hlx
        have hjlt : j < m.entities.length := (List.getElem?_eq_some.mp hsound).1
        have hji : j ≠ index := by
          intro hh
          rw [hh, hes] at hsound
          exact he' (Option.some.inj hsound).symm
        show newComps.get? j = m.components.get? j
        rw [List.get?_eq_getElem?, List.get?_eq_getElem?, hgetC j (by omega), if_neg hji]

theorem wfcore_lookup_of_getElem? {m : BoundingVolumeManager} (hwf : WfCore m) {j : Nat}
    {x : Entity} (hx : m.entities[j]? = some x) : amLookup m.indices x = some j := by
  obtain ⟨h, hv⟩ := List.getElem?_eq_some.mp hx
  have := hwf.2.1 j h
  rwa [hv] at this

theorem mem_esInsert {s : List Entity} {e x : Entity} (h : x ∈ esInsert s e) :
    x ∈ s ∨ x = e := by
  unfold esInsert at h
  split at h
  · exact Or.inl h
  · rcases List.mem_append.mp h with h1 | h2
    · exact Or.inl h1
    · exact Or.inr (List.mem_singleton.mp h2)

theorem esInsert_nodup {s : List Entity} (hnd : s.Nodup) (e : Entity) :
    (esInsert s e).Nodup := by
  unfold esInsert
  split
  · exact hnd
  · rename_i hne
    rw [List.nodup_append]
    exact ⟨hnd, List.nodup_singleton e, by simpa using hne⟩

/-- Draining a duplicate-free list of present entities through
`destroy_immediate` (as `destroy_marked` does) succeeds, preserves array
consistency, leaves the marked set untouched, removes exactly the drained
entities, and preserves everything else. -/
theorem foldl_destroy_spec (ms : List Entity) (m0 : BoundingVolumeManager)
    (hwf : WfCore m0) (hnd : ms.Nodup)
    (hpres : ∀ e ∈ ms, amContains m0.indices e = true) :
    ∃ m', ms.foldlM BoundingVolumeManager.destroy_immediate m0 = some m'
      ∧ WfCore m'
      ∧ m'.marked_for_destroy = m0.marked_for_destroy
      ∧ (∀ e ∈ ms, m'.get e = none)
      ∧ (∀ e, e ∉ ms → m'.get e = m0.get e) := by
  induction ms generalizing m0 with
  | nil => exact ⟨m0, rfl, hwf, rfl, by simp, fun e he => rfl⟩
  | cons a ms ih =>
      have hca : amContains m0.indices a = true := hpres a (List.mem_cons_self a ms)
      obtain ⟨m1, hstep, hwf1, hmark1, hlen1, hget_a, hget_other⟩ :=
        destroy_immediate_spec m0 a hwf hca
      have hnd' : ms.Nodup := (List.nodup_cons.mp hnd).2
      have hna : a ∉ ms := (List.nodup_cons.mp hnd).1
      have hpres' : ∀ e ∈ ms, amContains m1.indices e = true := by
        intro e he
        have hne : e ≠ a := fun hh => hna (hh ▸ he)
        obtain ⟨c, hcv⟩ := get_isSome_of_contains hwf (hpres e (List.mem_cons_of_mem a he))
        have hsome : m1.get e = some c := by rw [hget_other e hne]; exact hcv
        exact contains_of_get_isSome hsome
      obtain ⟨m', hfold, hwf', hmark', hget1, hget2⟩ := ih m1 hwf1 hnd' hpres'
      refine ⟨m', ?_, hwf', by rw [hmark', hmark1], ?_, ?_⟩
      · rw [List.foldlM_cons, hstep]
        exact hfold
      · intro e he
        rcases List.mem_cons.mp he with rfl | hin
        · by_cases hin2 : e ∈ ms
          · exact hget1 e hin2
          · rw [hget2 e hin2]
            exact hget_a
        · exact hget1 e hin
      · intro e he
        have hea : e ≠ a := fun hh => he (hh ▸ List.mem_cons_self a ms)
        have hems : e ∉ ms := fun hh => he (List.mem_cons_of_mem a hh)
        rw [hget2 e hems, hget_other e hea]

/-- Specification of `destroy_marked` on an invariant-satisfying store: it
succeeds, the resulting store is still consistent, the pending set is
cleared, `get` of every marked entity turns `none`, and every unmarked
entity keeps its component value. -/
theorem destroy_marked_spec (m : BoundingVolumeManager) (hwf : Wf m) :
    ∃ m', m.destroy_marked = some m'
      ∧ WfCore m'
      ∧ m'.marked_for_destroy = []
      ∧ (∀ e ∈ m.marked_for_destroy, m'.get e = none)
      ∧ (∀ e, e ∉ m.marked_for_destroy → m'.get e = m.get e) := by
  obtain ⟨comps, ents, idx, marked⟩ := m
  obtain ⟨hcore, hnd, hpres⟩ := hwf
  have h0 : WfCore ⟨comps, ents, idx, []⟩ := hcore
  obtain ⟨m', hfold, hwf', hmark', hget1, hget2⟩ :=
    foldl_destroy_spec marked ⟨comps, ents, idx, []⟩ h0 hnd hpres
  exact ⟨m', hfold, hwf', hmark', hget1, hget2⟩

theorem assign_wf (m : BoundingVolumeManager) (e : Entity) (c : BoundVolume)
    (m' : BoundingVolumeManager) (hwf : Wf m) (h : m.assign e c = some m') : Wf m' := by
  obtain ⟨hcore, hnd, hpres⟩ := hwf
  unfold BoundingVolumeManager.assign at h
  by_cases hc : amContains m.indices e = true
  · rw [if_pos hc] at h
    exact absurd h (by simp)
  · have hc' : amContains m.indices e = false := by
      revert hc; cases amContains m.indices e <;> simp
    rw [if_neg (by simp [hc'])] at h
    obtain rfl := Option.some.inj h
    refine ⟨⟨?_, ?_, ?_⟩, hnd, ?_⟩
    · show (m.entities ++ [e]).length = (m.components ++ [c]).length
      simp [hcore.1]
    · intro j hj
      have hj' : j < (m.entities ++ [e]).length := hj
      have hjlen : j < m.entities.length + 1 := by simpa using hj'
      by_cases hjl : j < m.entities.length
      · obtain ⟨x, hxq⟩ : ∃ x, (m.entities ++ [e])[j]? = some x :=
          ⟨_, List.getElem?_eq_getElem hj⟩
        have hveq : (m.entities ++ [e])[j] = x := getElem_eq_of_getElem? hj hxq
        have hxq' : m.entities[j]? = some x := by
          rw [List.getElem?_append, if_pos hjl] at hxq
          exact hxq
        have hlx : amLookup m.indices x = some j := wfcore_lookup_of_getElem? hcore hxq'
        have hxe : x ≠ e := by
          intro hxe
          rw [hxe] at hlx
          have : amContains m.indices e = true := by unfold amContains; rw [hlx]; rfl
          rw [this] at hc'
          exact absurd hc' (by simp)
        show amLookup (amInsert m.indices e m.components.length) ((m.entities ++ [e])[j]) = some j
        rw [hveq, amLookup_amInsert_ne _ _ _ _ hxe]
        exact hlx
      · have hje : j = m.entities.length := by omega
        have hxq : (m.entities ++ [e])[j]? = some e := by
          rw [hje]
          exact List.getElem?_concat_length m.entities e
        have hveq : (m.entities ++ [e])[j] = e := getElem_eq_of_getElem? hj hxq
        show amLookup (amInsert m.indices e m.components.length) ((m.entities ++ [e])[j]) = some j
        rw [hveq, amLookup_amInsert_self, hje, hcore.1]
    · intro p hp
      have hp' : p ∈ amInsert m.indices e m.components.length := hp
      rcases mem_amInsert hp' with hpe | ⟨hpl, hpne⟩
      · subst hpe
        show (m.entities ++ [e])[m.components.length]? = some e
        rw [← hcore.1]
        exact List.getElem?_concat_length m.entities e
      · have hsound := hcore.2.2 p hpl
        have hplt : p.2 < m.entities.length := (List.getElem?_eq_some.mp hsound).1
        show (m.entities ++ [e])[p.2]? = some p.1
        rw [List.getElem?_append, if_pos hplt]
        exact hsound
    · intro e' he'
      have hpe' := hpres e' he'
      unfold amContains at hpe' ⊢
      cases hlx : amLookup m.indices e' with
      | none => rw [hlx] at hpe'; exact absurd hpe' (by simp)
      | some j =>
          have he'e : e' ≠ e := by
            intro hh
            rw [hh] at hlx
            have : amContains m.indices e = true := by unfold amContains; rw [hlx]; rfl
            rw [this] at hc'
            exact absurd hc' (by simp)
          show (amLookup (amInsert m.indices e m.components.length) e').isSome = true
          rw [amLookup_amInsert_ne _ _ _ _ he'e, hlx]
          rfl

theorem destroy_all_wf (m : BoundingVolumeManager) (e : Entity) (hwf : Wf m) :
    Wf (m.destroy_all e) := by
  obtain ⟨hcore, hnd, hpres⟩ := hwf
  unfold BoundingVolumeManager.destroy_all
  split
  · rename_i hc
    refine ⟨hcore, esInsert_nodup hnd e, ?_⟩
    intro x hx
    have hx' : x ∈ esInsert m.marked_for_destroy e := hx
    rcases mem_esInsert hx' with hxm | hxe
    · exact hpres x hxm
    · subst hxe
      exact hc
  · exact ⟨hcore, hnd, hpres⟩

theorem destroy_marked_wf (m : BoundingVolumeManager) (m' : BoundingVolumeManager)
    (hwf : Wf m) (h : m.destroy_marked = some m') : Wf m' := by
  obtain ⟨m'', heq, hwf'', hmark'', -, -⟩ := destroy_marked_spec m hwf
  rw [heq] at h
  obtain rfl := Option.some.inj h
  refine ⟨hwf'', ?_, ?_⟩
  · rw [hmark'']
    exact List.nodup_nil
  · intro x hx
    rw [hmark''] at hx
    exact absurd hx (List.not_mem_nil x)

theorem run_preserves_wf (m : BoundingVolumeManager) (op : StoreOp)
    (m' : BoundingVolumeManager) (hwf : Wf m) (h : StoreOp.run m op = some m') : Wf m' := by
  cases op with
  | assign e c => exact assign_wf m e c m' hwf h
  | destroyAll e =>
      have : m.destroy_all e = m' := Option.some.inj h
      rw [← this]
      exact destroy_all_wf m e hwf
  | destroyMarked => exact destroy_marked_wf m m' hwf h

theorem wf_new : Wf BoundingVolumeManager.new := by
  refine ⟨⟨rfl, ?_, ?_⟩, List.nodup_nil, ?_⟩
  · intro i hi
    exact absurd hi (by simp [BoundingVolumeManager.new])
  · intro p hp
    exact absurd hp (by simp [BoundingVolumeManager.new])
  · intro e he
    exact absurd he (by simp [BoundingVolumeManager.new])

/-- Every store state reachable by running a sequence of `assign` /
`destroy_all` / `destroy_marked` operations from `new()` satisfies the full
store invariant. -/
theorem runOps_wf (ops : List StoreOp) (m : BoundingVolumeManager)
    (h : runOps ops = some m) : Wf m := by
  unfold runOps at h
  suffices haux : ∀ (ops : List StoreOp) (m0 : BoundingVolumeManager), Wf m0 →
      ops.foldlM StoreOp.run m0 = some m → Wf m by
    exact haux ops BoundingVolumeManager.new wf_new h
  intro ops
  induction ops with
  | nil =>
      intro m0 hwf0 hh
      obtain rfl := Option.some.inj hh
      exact hwf0
  | cons op ops ih =>
      intro m0 hwf0 hh
      rw [List.foldlM_cons] at hh
      cases hstep : StoreOp.run m0 op with
      | none => rw [hstep] at hh; exact absurd hh (by simp)
      | some m1 =>
          rw [hstep] at hh
          exact ih m1 (run_preserves_wf m0 op m1 hwf0 hstep) hh

/-- C4: after any sequence of `assign`, `destroy_all` and `destroy_marked`
operations from `new()` (that does not hit a fatal assertion), the store
satisfies: `entities` and `components` have equal length, the index maps
every stored entity back to its slot, and each entity occupies at most one
slot. -/
theorem store_arrays_consistent (ops : List StoreOp) (m : BoundingVolumeManager)
    (h : runOps ops = some m) :
    m.entities.length = m.components.length
    ∧ (∀ i (hi : i < m.entities.length), amLookup m.indices m.entities[i] = some i)
    ∧ m.entities.Nodup := by
  have hwf := runOps_wf ops m h
  exact ⟨hwf.1.1, hwf.1.2.1, entities_nodup hwf.1⟩

/-- A sample operation sequence: two assigns, one deferred destroy, one
flush. -/
def opsW : List StoreOp :=
  [.assign 1 (sphereVolume 1 0 0 0 1), .assign 2 (sphereVolume 2 5 0 0 1),
   .destroyAll 1, .destroyMarked]

/-- The store that `opsW` produces. -/
def mW4 : BoundingVolumeManager := (runOps opsW).getD BoundingVolumeManager.new

/-- Witness for C4 on the concrete sequence `opsW`. -/
theorem store_arrays_consistent_witness :
    runOps opsW = some mW4
    ∧ (mW4.entities.length = mW4.components.length
       ∧ (∀ i (hi : i < mW4.entities.length), amLookup mW4.indices mW4.entities[i] = some i)
       ∧ mW4.entities.Nodup) :=
  ⟨rfl, store_arrays_consistent opsW mW4 rfl⟩

/-- C5: `destroy_marked` succeeds on every invariant-satisfying store,
clears the pending set, makes `get` return `none` for exactly the entities
marked since the previous flush, and leaves every other entity's component
value untouched. -/
theorem destroy_marked_removes_exactly (m : BoundingVolumeManager) (hwf : Wf m) :
    m.destroy_marked = some ((m.destroy_marked).getD m)
    ∧ ((m.destroy_marked).getD m).marked_for_destroy = []
    ∧ (∀ e ∈ m.marked_for_destroy, ((m.destroy_marked).getD m).get e = none)
    ∧ (∀ e, e ∉ m.marked_for_destroy → ((m.destroy_marked).getD m).get e = m.get e) := by
  obtain ⟨m', heq, -, hmark, hg1, hg2⟩ := destroy_marked_spec m hwf
  rw [heq]
  exact ⟨rfl, hmark, hg1, hg2⟩

/-- A store holding entities 1 and 2, with entity 1 marked for destruction. -/
def storeW : BoundingVolumeManager :=
  { components := [sphereVolume 1 0 0 0 1, sphereVolume 2 5 0 0 1]
    entities := [1, 2]
    indices := [(1, 0), (2, 1)]
    marked_for_destroy := [1] }

/-- Witness for C5 at the concrete store `storeW`. -/
theorem destroy_marked_removes_exactly_witness :
    Wf storeW
    ∧ (storeW.destroy_marked = some ((storeW.destroy_marked).getD storeW)
       ∧ ((storeW.destroy_marked).getD storeW).marked_for_destroy = []
       ∧ (∀ e ∈ storeW.marked_for_destroy, ((storeW.destroy_marked).getD storeW).get e = none)
       ∧ (∀ e, e ∉ storeW.marked_for_destroy →
             ((storeW.destroy_marked).getD storeW).get e = storeW.get e)) :=
  ⟨by unfold Wf WfCore; decide, destroy_marked_removes_exactly storeW (by unfold Wf WfCore; decide)⟩

/-- Strict lexicographic order on grid cells (x, then y, then z): the order
in which the source iterator advances its cursor. -/
def cellLexLt (a b : GridCell) : Prop :=
  a.x < b.x ∨ (a.x = b.x ∧ (a.y < b.y ∨ (a.y = b.y ∧ a.z < b.z)))

theorem cellLexLt_trans {a b c : GridCell} (h1 : cellLexLt a b) (h2 : cellLexLt b c) :
    cellLexLt a c := by
  unfold cellLexLt at h1 h2 ⊢
  omega

theorem cellLexLt_irrefl (a : GridCell) : ¬cellLexLt a a := by
  unfold cellLexLt
  omega

theorem next_yield_lex {it it' : GridIter} {c : GridCell} (h : it.next = some (c, it')) :
    c = it.nxt ∧ cellLexLt it.nxt it'.nxt := by
  simp only [GridIter.next] at h
  split at h
  · split at h
    · split at h
      · exact absurd h (by simp)
      · simp only [Option.some.injEq, Prod.mk.injEq] at h
        obtain ⟨h1, h2⟩ := h
        subst h2
        refine ⟨h1.symm, ?_⟩
        unfold cellLexLt
        dsimp only
        omega
    · simp only [Option.some.injEq, Prod.mk.injEq] at h
      obtain ⟨h1, h2⟩ := h
      subst h2
      refine ⟨h1.symm, ?_⟩
      unfold cellLexLt
      dsimp only
      omega
  · simp only [Option.some.injEq, Prod.mk.injEq] at h
    obtain ⟨h1, h2⟩ := h
    subst h2
    refine ⟨h1.symm, ?_⟩
    unfold cellLexLt
    dsimp only
    omega

theorem drain_ge (gas : Nat) : ∀ (it : GridIter) (c : GridCell),
    c ∈ GridIter.drain gas it → c = it.nxt ∨ cellLexLt it.nxt c := by
  induction gas with
  | zero => intro it c hc; exact absurd hc (by simp [GridIter.drain])
  | succ gas ih =>
      intro it c hc
      rw [GridIter.drain] at hc
      cases hn : it.next with
      | none => rw [hn] at hc; exact absurd hc (by simp)
      | some ci =>
          obtain ⟨c1, it1⟩ := ci
          rw [hn] at hc
          obtain ⟨hy, hlex⟩ := next_yield_lex hn
          rcases List.mem_cons.mp hc with rfl | htail
          · exact Or.inl hy
          · rcases ih it1 c htail with rfl | hlex2
            · exact Or.inr hlex
            · exact Or.inr (cellLexLt_trans hlex hlex2)

theorem drain_nodup (gas : Nat) : ∀ it : GridIter, (GridIter.drain gas it).Nodup := by
  induction gas with
  | zero => intro it; simp [GridIter.drain]
  | succ gas ih =>
      intro it
      rw [GridIter.drain]
      cases hn : it.next with
      | none => simp
      | some ci =>
          obtain ⟨c1, it1⟩ := ci
          rw [List.nodup_cons]
          refine ⟨?_, ih it1⟩
          intro hmem
          obtain ⟨hy, hlex⟩ := next_yield_lex hn
          rcases drain_ge gas it1 c1 hmem with heq | hlex2
          · rw [← hy, heq] at hlex
            exact cellLexLt_irrefl _ hlex
          · have hx : cellLexLt it.nxt c1 := cellLexLt_trans hlex hlex2
            rw [hy] at hx
            exact cellLexLt_irrefl _ hx

/-- The cells yielded by one drain of the grid iterator are pairwise
distinct (the cursor advances strictly lexicographically). -/
theorem toList_nodup (it : GridIter) : it.toList.Nodup :=
  drain_nodup it.stepBound it

/-- The orientation invariant of the collision set relative to a storage
order: every recorded pair is (later volume's entity, earlier volume's
entity). -/
def PairsInv (l : List BoundVolume) (cols : List (Entity × Entity)) : Prop :=
  ∀ pr ∈ cols, ∃ i j, ∃ hi : i < l.length, ∃ hj : j < l.length,
    i < j ∧ l[j].entity = pr.1 ∧ l[i].entity = pr.2

/-- Grid occupants after fully processing the volumes in `processed`: each
entry records its own volume's entity, and each registered volume is one of
the processed ones. -/
def OccInv (processed : List BoundVolume)
    (grid : List (GridCell × List (Entity × BoundVolume))) : Prop :=
  ∀ p ∈ grid, ∀ q ∈ p.2, q.1 = q.2.entity ∧ q.2 ∈ processed

/-- Grid occupants midway through registering volume `v` into its cells:
like `OccInv`, except `v` itself may already occupy the cells it has
visited — exactly those outside the unvisited remainder `rest`. -/
def OccInvMid (processed : List BoundVolume) (v : BoundVolume) (rest : List GridCell)
    (grid : List (GridCell × List (Entity × BoundVolume))) : Prop :=
  ∀ p ∈ grid, ∀ q ∈ p.2, q.1 = q.2.entity ∧ (q.2 ∈ processed ∨ (q.2 = v ∧ p.1 ∉ rest))

theorem PairsInv_mono {l l2 : List BoundVolume} {cols : List (Entity × Entity)}
    (h : PairsInv l cols) : PairsInv (l ++ l2) cols := by
  intro pr hpr
  obtain ⟨i, j, hi, hj, hij, hja, hib⟩ := h pr hpr
  refine ⟨i, j, by simp; omega, by simp; omega, hij, ?_, ?_⟩
  · rw [List.getElem_append_left hj]
    exact hja
  · rw [List.getElem_append_left hi]
    exact hib

theorem mem_insertPair {pr x : Entity × Entity} {l : List (Entity × Entity)}
    (h : x ∈ insertPair pr l) : x = pr ∨ x ∈ l := by
  unfold insertPair at h
  split at h
  · exact Or.inr h
  · rcases List.mem_append.mp h with h1 | h2
    · exact Or.inr h1
    · exact Or.inl (List.mem_singleton.mp h2)

theorem mem_collision_fold (v : BoundVolume) (cell : List (Entity × BoundVolume)) :
    ∀ (cols0 : List (Entity × Entity)) (x : Entity × Entity),
    x ∈ cell.foldl
      (fun cols other =>
        if v.test other.2 then insertPair (v.entity, other.1) cols else cols) cols0 →
    x ∈ cols0 ∨ ∃ q ∈ cell, x = (v.entity, q.1) := by
  induction cell with
  | nil => intro cols0 x hx; exact Or.inl hx
  | cons q cell ih =>
      intro cols0 x hx
      rw [List.foldl_cons] at hx
      rcases ih _ x hx with hin | ⟨q', hq', rfl⟩
      · split at hin
        · rcases mem_insertPair hin with rfl | hin0
          · exact Or.inr ⟨q, List.mem_cons_self q cell, rfl⟩
          · exact Or.inl hin0
        · exact Or.inl hin
      · exact Or.inr ⟨q', List.mem_cons_of_mem q hq', rfl⟩

theorem lookupCell_mem {g : List (GridCell × List (Entity × BoundVolume))} {c : GridCell}
    {cell : List (Entity × BoundVolume)} (h : lookupCell g c = some cell) : (c, cell) ∈ g := by
  unfold lookupCell at h
  cases hf : g.find? (fun p => decide (p.1 = c)) with
  | none => rw [hf] at h; exact absurd h (by simp)
  | some p =>
      rw [hf] at h
      have hm := List.mem_of_find?_eq_some hf
      have hp := List.find?_some hf
      simp only [decide_eq_true_eq] at hp
      simp only [Option.map_some', Option.some.injEq] at h
      have : p = (c, cell) := by
        cases p
        simp_all
      exact this ▸ hm

theorem mem_setCell {g : List (GridCell × List (Entity × BoundVolume))} {c : GridCell}
    {v : List (Entity × BoundVolume)} {p : GridCell × List (Entity × BoundVolume)}
    (h : p ∈ setCell g c v) : p = (c, v) ∨ (p ∈ g ∧ p.1 ≠ c) := by
  unfold setCell at h
  obtain ⟨q, hq, hmap⟩ := List.mem_map.mp h
  by_cases hqc : q.1 = c
  · rw [if_pos hqc] at hmap
    exact Or.inl hmap.symm
  · rw [if_neg hqc] at hmap
    exact Or.inr ⟨hmap ▸ hq, hmap ▸ hqc⟩

theorem visitCell_inv (v : BoundVolume) (st : GridState) (c : GridCell)
    (rest : List GridCell) (processed : List BoundVolume)
    (hocc : OccInvMid processed v (c :: rest) st.grid)
    (hprs : PairsInv (processed ++ [v]) st.collisions)
    (hcrest : c ∉ rest) :
    OccInvMid processed v rest (visitCell v st c).grid
    ∧ PairsInv (processed ++ [v]) (visitCell v st c).collisions := by
  unfold visitCell
  cases hl : lookupCell st.grid c with
  | none =>
      refine ⟨?_, hprs⟩
      intro p hp q hq
      rcases List.mem_append.mp hp with hpg | hps
      · obtain ⟨h1, h2⟩ := hocc p hpg q hq
        refine ⟨h1, ?_⟩
        rcases h2 with h2 | ⟨h2a, h2b⟩
        · exact Or.inl h2
        · exact Or.inr ⟨h2a, fun hr => h2b (List.mem_cons_of_mem c hr)⟩
      · have hpe : p = (c, [(v.entity, v)]) := List.mem_singleton.mp hps
        subst hpe
        have hqe : q = (v.entity, v) := List.mem_singleton.mp hq
        subst hqe
        exact ⟨rfl, Or.inr ⟨rfl, hcrest⟩⟩
  | some cell =>
      have hcut : ∀ q ∈ cell, q.1 = q.2.entity ∧ q.2 ∈ processed := by
        have hmem : (c, cell) ∈ st.grid := lookupCell_mem hl
        intro q hq
        obtain ⟨h1, h2⟩ := hocc (c, cell) hmem q hq
        refine ⟨h1, ?_⟩
        rcases h2 with h2 | ⟨-, h2b⟩
        · exact h2
        · exact absurd (List.mem_cons_self c rest) h2b
      constructor
      · intro p hp q hq
        rcases mem_setCell hp with hpe | ⟨hpg, -⟩
        · subst hpe
          rcases List.mem_append.mp hq with hqc | hqv
          · obtain ⟨h1, h2⟩ := hcut q hqc
            exact ⟨h1, Or.inl h2⟩
          · have hqe : q = (v.entity, v) := List.mem_singleton.mp hqv
            subst hqe
            exact ⟨rfl, Or.inr ⟨rfl, hcrest⟩⟩
        · obtain ⟨h1, h2⟩ := hocc p hpg q hq
          refine ⟨h1, ?_⟩
          rcases h2 with h2 | ⟨h2a, h2b⟩
          · exact Or.inl h2
          · exact Or.inr ⟨h2a, fun hr => h2b (List.mem_cons_of_mem c hr)⟩
      · intro pr hpr
        rcases mem_collision_fold v cell st.collisions pr hpr with hin | ⟨q, hq, rfl⟩
        · exact hprs pr hin
        · obtain ⟨h1, h2⟩ := hcut q hq
          obtain ⟨i, hi, hiv⟩ := List.mem_iff_getElem.mp h2
          refine ⟨i, processed.length, by simp; omega, by simp, by omega, ?_, ?_⟩
          · exact congrArg BoundVolume.entity
              (List.getElem_concat_length processed v processed.length rfl (by simp))
          · rw [List.getElem_append_left hi, hiv]
            exact h1.symm

theorem foldCells_inv (v : BoundVolume) (processed : List BoundVolume) :
    ∀ (cells : List GridCell) (st : GridState),
    cells.Nodup →
    OccInvMid processed v cells st.grid →
    PairsInv (processed ++ [v]) st.collisions →
    OccInvMid processed v [] (cells.foldl (visitCell v) st).grid
    ∧ PairsInv (processed ++ [v]) (cells.foldl (visitCell v) st).collisions := by
  intro cells
  induction cells with
  | nil => intro st _ h1 h2; exact ⟨h1, h2⟩
  | cons c rest ih =>
      intro st hnd h1 h2
      obtain ⟨hc, hrest⟩ := List.nodup_cons.mp hnd
      obtain ⟨h1', h2'⟩ := visitCell_inv v st c rest processed h1 h2 hc
      rw [List.foldl_cons]
      exact ih (visitCell v st c) hrest h1' h2'

theorem updateVolume_inv (cell_size : ℚ) (st : GridState) (v : BoundVolume)
    (processed : List BoundVolume)
    (hocc : OccInv processed st.grid) (hprs : PairsInv processed st.collisions) :
    OccInv (processed ++ [v]) (updateVolume cell_size st v).grid
    ∧ PairsInv (processed ++ [v]) (updateVolume cell_size st v).collisions := by
  unfold updateVolume
  have h1 : OccInvMid processed v
      ((world_to_grid cell_size v.aabb.min).iter_to
        (world_to_grid cell_size v.aabb.max)).toList st.grid := by
    intro p hp q hq
    obtain ⟨ha, hb⟩ := hocc p hp q hq
    exact ⟨ha, Or.inl hb⟩
  have h2 : PairsInv (processed ++ [v]) st.collisions := PairsInv_mono hprs
  obtain ⟨h1', h2'⟩ := foldCells_inv v processed _ st (toList_nodup _) h1 h2
  refine ⟨?_, h2'⟩
  intro p hp q hq
  obtain ⟨ha, hb⟩ := h1' p hp q hq
  refine ⟨ha, ?_⟩
  rcases hb with hb | ⟨hb, -⟩
  · exact List.mem_append.mpr (Or.inl hb)
  · rw [hb]
    exact List.mem_append.mpr (Or.inr (List.mem_singleton.mpr rfl))

theorem update_fold_inv (cell_size : ℚ) :
    ∀ (vs processed : List BoundVolume) (st : GridState),
    OccInv processed st.grid → PairsInv processed st.collisions →
    OccInv (processed ++ vs) (vs.foldl (updateVolume cell_size) st).grid
    ∧ PairsInv (processed ++ vs) (vs.foldl (updateVolume cell_size) st).collisions := by
  intro vs
  induction vs with
  | nil =>
      intro processed st h1 h2
      rw [List.append_nil]
      exact ⟨h1, h2⟩
  | cons v vs ih =>
      intro processed st h1 h2
      obtain ⟨h1', h2'⟩ := updateVolume_inv cell_size st v processed h1 h2
      have hres := ih (processed ++ [v]) (updateVolume cell_size st v) h1' h2'
      rw [List.foldl_cons]
      have heq : processed ++ [v] ++ vs = processed ++ v :: vs := by
        rw [List.append_assoc]
        rfl
      rw [← heq]
      exact hres

/-- Every pair emitted by one `update()` is oriented (later volume's entity,
earlier volume's entity) relative to the manager's storage order. -/
theorem update_pairs_inv (cell_size : ℚ) (vols : List BoundVolume) :
    PairsInv vols (GridCollisionSystem.update cell_size vols).collisions := by
  have h := update_fold_inv cell_size vols []
    { grid := [], collisions := [] }
    (by intro p hp; exact absurd hp (List.not_mem_nil p))
    (by intro pr hpr; exact absurd hpr (List.not_mem_nil pr))
  rw [List.nil_append] at h
  exact h.2

/-- C10: when the stored volumes carry pairwise-distinct entities, every
pair `(a, b)` in the collision set after one `update()` has `a`'s volume
strictly later than `b`'s in storage order; hence no unordered pair appears
in both orientations and no self-pair `(e, e)` is ever recorded. -/
theorem update_pairs_oriented (cell_size : ℚ) (vols : List BoundVolume) (a b : Entity)
    (hnd : (vols.map BoundVolume.entity).Nodup)
    (hmem : (a, b) ∈ (GridCollisionSystem.update cell_size vols).collisions) :
    (∃ i j, ∃ hi : i < vols.length, ∃ hj : j < vols.length,
        i < j ∧ vols[j].entity = a ∧ vols[i].entity = b)
    ∧ (b, a) ∉ (GridCollisionSystem.update cell_size vols).collisions
    ∧ a ≠ b := by
  have hinj : ∀ (i j : Nat) (hi : i < vols.length) (hj : j < vols.length),
      vols[i].entity = vols[j].entity → i = j := by
    intro i j hi hj he
    rw [List.nodup_iff_injective_get] at hnd
    have hlen : (vols.map BoundVolume.entity).length = vols.length := by simp
    have hgm : (vols.map BoundVolume.entity).get ⟨i, by omega⟩
        = (vols.map BoundVolume.entity).get ⟨j, by omega⟩ := by
      simp only [List.get_eq_getElem, List.getElem_map]
      exact he
    have := hnd hgm
    simpa using this
  obtain ⟨i, j, hi, hj, hij, hja, hib⟩ := update_pairs_inv cell_size vols (a, b) hmem
  refine ⟨⟨i, j, hi, hj, hij, hja, hib⟩, ?_, ?_⟩
  · intro hba
    obtain ⟨i', j', hi', hj', hij', hjb, hia⟩ := update_pairs_inv cell_size vols (b, a) hba
    have h1 : j = i' := hinj j i' hj hi' (by rw [hja, hia])
    have h2 : i = j' := hinj i j' hi hj' (by rw [hib, hjb])
    omega
  · intro hab
    have : j = i := hinj j i hj hi (by rw [hja, hib, hab])
    omega

/-- A quarter-radius sphere straddling the `x = 1` cell boundary. -/
def volStraddleA : BoundVolume := sphereVolume 1 1 (1/2) (1/2) (1/4)

/-- A second quarter-radius sphere overlapping `volStraddleA`. -/
def volStraddleB : BoundVolume := sphereVolume 2 (9/10) (1/2) (1/2) (1/4)

/-- Witness for C10: with `cell_size = 1` the two straddling spheres share
the cell `(0,0,0)`, the recorded pair is `(2, 1)` (later entity first), and
the theorem's conclusions hold at it. -/
theorem update_pairs_oriented_witness :
    (([volStraddleA, volStraddleB].map BoundVolume.entity).Nodup
      ∧ (2, 1) ∈ (GridCollisionSystem.update 1 [volStraddleA, volStraddleB]).collisions)
    ∧ ((∃ i j, ∃ hi : i < ([volStraddleA, volStraddleB] : List BoundVolume).length,
          ∃ hj : j < ([volStraddleA, volStraddleB] : List BoundVolume).length,
          i < j ∧ [volStraddleA, volStraddleB][j].entity = 2
            ∧ [volStraddleA, volStraddleB][i].entity = 1)
        ∧ (1, 2) ∉ (GridCollisionSystem.update 1 [volStraddleA, volStraddleB]).collisions
        ∧ (2 : Entity) ≠ 1) := by
  have hnd : ([volStraddleA, volStraddleB].map BoundVolume.entity).Nodup := by
    norm_num [volStraddleA, volStraddleB, sphereVolume]
  have hmem : (2, 1) ∈ (GridCollisionSystem.update 1 [volStraddleA, volStraddleB]).collisions := by
    norm_num [GridCollisionSystem.update, updateVolume, visitCell, GridIter.toList,
      GridIter.stepBound, GridIter.drain, GridIter.next, GridCell.iter_to, world_to_grid,
      lookupCell, setCell, insertPair, BoundVolume.test, BoundVolume.testInstr,
      CachedCollider.test, AABB.test_aabb, test_ranges, Point.distSq,
      volStraddleA, volStraddleB, sphereVolume]
  exact ⟨⟨hnd, hmem⟩, update_pairs_oriented 1 [volStraddleA, volStraddleB] 2 1 hnd hmem⟩

end Gunship
